import Mathlib

/-! Formal model of a small Rust generational-arena library.
    The definitions below are a shallow embedding of the Rust sources:
    dynvec.rs (Handle, Slot, DynVec and its methods), generational.rs
    (GenVariant and its handle type) and weak.rs (Elem, the weak view).
    The u32 generation counters are modelled as Nat with explicit
    reduction modulo 2 ^ 32 where the Rust code uses wrapping arithmetic;
    usize indices are modelled as Nat; Vec is modelled as List with push
    appending at the end and pop taking from the end, matching Vec. -/

namespace GenMem

/-- Modulus of the u32 generation counters. -/
def U32 : Nat := 2 ^ 32

/-- Wrapping increment, models generation.wrapping_add(1) on u32. -/
def bump (g : Nat) : Nat := (g + 1) % U32

/-- Handle from dynvec.rs: a public index and a public generation. -/
structure Handle where
  idx : Nat
  generation : Nat
  deriving DecidableEq

/-- Slot from dynvec.rs: a generation and an optional payload. -/
structure Slot (T : Type) where
  generation : Nat
  val : Option T
  deriving DecidableEq

/-- DynVec from dynvec.rs: the slot vector and the free list of indices. -/
structure DynVec (T : Type) where
  slots : List (Slot T)
  free : List Nat
  deriving DecidableEq

namespace DynVec

variable {T : Type}

/-- DynVec::new and Default: empty slot vector, empty free list. -/
def new : DynVec T := ⟨[], []⟩

/-- DynVec::insert. Vec::pop takes the last element of the free vector.
    In Rust the popped index is used for unchecked slot indexing; the
    getD 0 default below is never reached in states produced through the
    public API, where every free index is in bounds. -/
def insert (s : DynVec T) (value : T) : Handle × DynVec T :=
  match s.free.getLast? with
  | some idx =>
    let generation := ((s.slots[idx]?).map Slot.generation).getD 0
    (⟨idx, generation⟩,
      ⟨s.slots.set idx ⟨generation, some value⟩, s.free.dropLast⟩)
  | none =>
    let idx := s.slots.length
    (⟨idx, 0⟩, ⟨s.slots ++ [⟨0, some value⟩], s.free⟩)

/-- DynVec::replace: bounds check, then generation and occupancy check;
    on success bump the generation, store the value and return a handle
    carrying the bumped generation. -/
def replace (s : DynVec T) (h : Handle) (value : T) : Except Unit Handle × DynVec T :=
  match s.slots[h.idx]? with
  | none => (.error (), s)
  | some slot =>
    if slot.generation ≠ h.generation ∨ slot.val.isNone then (.error (), s)
    else
      (.ok ⟨h.idx, bump slot.generation⟩,
        ⟨s.slots.set h.idx ⟨bump slot.generation, some value⟩, s.free⟩)

/-- DynVec::get: bounds check, then the Rust body
    (slot.generation == h.generation).then(slot.val.as_ref()).flatten(). -/
def get (s : DynVec T) (h : Handle) : Option T :=
  match s.slots[h.idx]? with
  | none => none
  | some slot => if slot.generation = h.generation then slot.val else none

/-- DynVec::get_mut performs the same lookup and validation as get; the
    write through the returned mutable reference is modelled by mutateVia. -/
def getMut (s : DynVec T) (h : Handle) : Option T :=
  match s.slots[h.idx]? with
  | none => none
  | some slot => if slot.generation = h.generation then slot.val else none

/-- DynVec::remove: validate, then take the payload, bump the generation
    and push the index on the free list. -/
def remove (s : DynVec T) (h : Handle) : Option T × DynVec T :=
  match s.slots[h.idx]? with
  | none => (none, s)
  | some slot =>
    if slot.generation ≠ h.generation ∨ slot.val.isNone then (none, s)
    else
      (slot.val,
        ⟨s.slots.set h.idx ⟨bump slot.generation, none⟩, s.free ++ [h.idx]⟩)

/-- Body of the loop in DynVec::clear, starting at index i: empties each
    occupied slot and bumps its generation, leaves empty slots alone, and
    collects in iteration order the indices pushed onto the free list. -/
def clearAux : List (Slot T) → Nat → List (Slot T) × List Nat
  | [], _ => ([], [])
  | slot :: rest, i =>
    match slot.val with
    | some _ =>
      (⟨bump slot.generation, none⟩ :: (clearAux rest (i + 1)).1,
        i :: (clearAux rest (i + 1)).2)
    | none => (slot :: (clearAux rest (i + 1)).1, (clearAux rest (i + 1)).2)

/-- DynVec::clear. -/
def clear (s : DynVec T) : DynVec T :=
  ⟨(clearAux s.slots 0).1, s.free ++ (clearAux s.slots 0).2⟩

/-- Vec::swap restricted to in-bounds indices (DynVec::swap only calls it
    after both indices passed a bounds check). -/
def listSwap {α : Type} (l : List α) (i j : Nat) : List α :=
  match l[i]?, l[j]? with
  | some x, some y => (l.set i y).set j x
  | _, _ => l

/-- DynVec::swap: bounds and generation checks on both handles, then
    Vec::swap of the two whole slots (generation and payload together). -/
def swap (s : DynVec T) (a b : Handle) : Except Unit Unit × DynVec T :=
  match s.slots[a.idx]?, s.slots[b.idx]? with
  | some sa, some sb =>
    if sa.generation ≠ a.generation ∨ sb.generation ≠ b.generation then (.error (), s)
    else (.ok (), ⟨listSwap s.slots a.idx b.idx, s.free⟩)
  | _, _ => (.error (), s)

/-- DynVec::map_invalidate: bounds and generation check (no occupancy
    check), then apply f to the taken payload, bump the generation and
    store the result. The free list is not touched. -/
def mapInvalidate (s : DynVec T) (h : Handle) (f : Option T → Option T) :
    Except Unit Unit × DynVec T :=
  match s.slots[h.idx]? with
  | none => (.error (), s)
  | some slot =>
    if slot.generation ≠ h.generation then (.error (), s)
    else (.ok (), ⟨s.slots.set h.idx ⟨bump slot.generation, f slot.val⟩, s.free⟩)

/-- DynVec::len: number of slots, free ones included. -/
def len (s : DynVec T) : Nat := s.slots.length

/-- Models a caller writing through the mutable reference returned by
    DynVec::get_mut: when get_mut succeeds the payload is replaced in
    place by f of it and nothing else changes; when get_mut fails nothing
    changes. -/
def mutateVia (s : DynVec T) (h : Handle) (f : T → T) : DynVec T :=
  match s.slots[h.idx]? with
  | none => s
  | some slot =>
    if slot.generation = h.generation then
      match slot.val with
      | some v => ⟨s.slots.set h.idx ⟨slot.generation, some (f v)⟩, s.free⟩
      | none => s
    else s

end DynVec

/-- One public mutating DynVec operation, with arbitrary (possibly forged)
    handle arguments: both Handle fields are public in the Rust code. -/
inductive Step {T : Type} : DynVec T → DynVec T → Prop
  | insert (s : DynVec T) (v : T) : Step s (s.insert v).2
  | replace (s : DynVec T) (h : Handle) (v : T) : Step s (s.replace h v).2
  | remove (s : DynVec T) (h : Handle) : Step s (s.remove h).2
  | clear (s : DynVec T) : Step s s.clear
  | swap (s : DynVec T) (a b : Handle) : Step s (s.swap a b).2
  | mapInvalidate (s : DynVec T) (h : Handle) (f : Option T → Option T) :
      Step s (s.mapInvalidate h f).2
  | getMutWrite (s : DynVec T) (h : Handle) (f : T → T) : Step s (s.mutateVia h f)

/-- Arena states reachable from DynVec::new through the public API. -/
inductive Reachable {T : Type} : DynVec T → Prop
  | new : Reachable DynVec.new
  | step {s s' : DynVec T} : Reachable s → Step s s' → Reachable s'

/-- MyVariant from generational.rs. -/
inductive MyVariant
  | int (i : Int)
  | text (s : String)
  | bool (b : Bool)
  deriving DecidableEq

/-- Handle from generational.rs: a generation only, no index. -/
structure GVHandle where
  generation : Nat
  deriving DecidableEq

/-- GenVariant from generational.rs: a payload and a generation. -/
structure GenVariant where
  inner : MyVariant
  generation : Nat
  deriving DecidableEq

namespace GenVariant

/-- GenVariant::new: starts at generation 0. -/
def new (inner : MyVariant) : GenVariant := ⟨inner, 0⟩

/-- GenVariant::handle: snapshot of the current generation. -/
def handle (g : GenVariant) : GVHandle := ⟨g.generation⟩

/-- GenVariant::get: the payload iff the handle generation is current. -/
def get (g : GenVariant) (h : GVHandle) : Option MyVariant :=
  if h.generation = g.generation then some g.inner else none

/-- GenVariant::set: store the new payload and bump the generation. -/
def set (g : GenVariant) (newInner : MyVariant) : GenVariant :=
  ⟨newInner, bump g.generation⟩

end GenVariant

/-- Elem from weak.rs: a parent arena reference and a handle. The parent
    field holds the arena state seen through that reference. -/
structure Elem (T : Type) where
  parent : DynVec T
  handle : Handle

namespace Elem

/-- Elem::new from weak.rs: parent.get(handle).map(construct the view). -/
def new {T : Type} (parent : DynVec T) (handle : Handle) : Option (Elem T) :=
  (parent.get handle).map fun _ => ⟨parent, handle⟩

/-- Deref for Elem from weak.rs: parent.get(handle).expect(use after
    invalidate). The none result models the panic branch of expect. -/
def deref {T : Type} (e : Elem T) : Option T := e.parent.get e.handle

end Elem

/-- Arena over Nat used as concrete input by the witnesses: 10 and 20
    inserted into a fresh arena, at indices 0 and 1, both at generation 0. -/
def exAB : DynVec Nat := (((DynVec.new).insert 10).2.insert 20).2

/-- Arena over Nat exercising DynVec::swap on handles with different
    generations: insert 10 and 99, remove the second, insert 20, so that
    slot 0 holds 10 at generation 0 and slot 1 holds 20 at generation 1. -/
def exSwapPre : DynVec Nat :=
  ((((DynVec.new).insert 10).2.insert 99).2.remove ⟨1, 0⟩).2.insert 20 |>.2

/-- A wrapping increment never returns its argument. -/
theorem bump_ne (g : Nat) : bump g ≠ g := by
  unfold bump U32
  have h : (2 : Nat) ^ 32 = 4294967296 := by norm_num
  rw [h]
  omega

/-- C1: the swap claim fails on the code. In exSwapPre the handles (0, 0)
    and (1, 1) are both valid and swap on them succeeds, yet afterwards
    both handles fail to validate: DynVec::swap exchanges the whole slots,
    generation counters included, so each slot now stores the generation
    of the other handle. -/
theorem swap_whole_slot_failing_case :
    exSwapPre.get ⟨0, 0⟩ = some 10 ∧
    exSwapPre.get ⟨1, 1⟩ = some 20 ∧
    (exSwapPre.swap ⟨0, 0⟩ ⟨1, 1⟩).1 = .ok () ∧
    (exSwapPre.swap ⟨0, 0⟩ ⟨1, 1⟩).2.get ⟨0, 0⟩ = none ∧
    (exSwapPre.swap ⟨0, 0⟩ ⟨1, 1⟩).2.get ⟨1, 1⟩ = none :=
  ⟨rfl, rfl, rfl, rfl, rfl⟩

/-- C2: the free-list invariant fails on the code. Inserting 5 into a
    fresh arena and calling map_invalidate on its handle with the constant
    none function succeeds and empties slot 0, but the index 0 is never
    pushed onto the free list, so an empty slot exists whose index is not
    on the free list. -/
theorem mapInvalidate_leaks_empty_slot :
    ((((DynVec.new).insert 5).2.mapInvalidate ⟨0, 0⟩ fun _ => none).1 = .ok () ∧
      ((((DynVec.new (T := Nat)).insert 5).2.mapInvalidate ⟨0, 0⟩ fun _ => none).2.slots
        = [⟨1, none⟩] ∧
      (((DynVec.new (T := Nat)).insert 5).2.mapInvalidate ⟨0, 0⟩ fun _ => none).2.free
        = [])) :=
  ⟨rfl, rfl, rfl⟩

/-- C5: get returns the payload exactly when the index is in bounds, the
    stored generation equals the handle generation and the slot is
    occupied; in every other case it returns none. get_mut validates the
    same way. -/
theorem get_characterization {T : Type} (s : DynVec T) (h : Handle) :
    (∀ v : T, s.get h = some v ↔
      ∃ slot, s.slots[h.idx]? = some slot ∧ slot.generation = h.generation ∧
        slot.val = some v) ∧
    s.getMut h = s.get h := by
  refine ⟨fun v => ?_, rfl⟩
  unfold DynVec.get
  cases hs : s.slots[h.idx]? with
  | none => simp
  | some slot =>
    by_cases hg : slot.generation = h.generation
    · simp [hg]
    · simp [hg]

/-- C5 witness: in the concrete arena exAB, get on the handle (0, 0)
    returns the stored value 10. -/
theorem get_characterization_witness : exAB.get ⟨0, 0⟩ = some 10 :=
  ((get_characterization exAB ⟨0, 0⟩).1 10).mpr ⟨⟨0, some 10⟩, rfl, rfl, rfl⟩

/-- C9: GenVariant::set stores the new payload and always bumps the
    generation, so a handle taken before the call no longer validates,
    while a handle taken after the call reads the new payload. -/
theorem genVariant_set_invalidates (g : GenVariant) (n m : MyVariant) :
    (g.set n).inner = n ∧
    (g.set n).generation = bump g.generation ∧
    (g.set n).get g.handle = none ∧
    (∀ h : GVHandle, g.get h = some m → (g.set n).get h = none) ∧
    (g.set n).get (g.set n).handle = some n := by
  refine ⟨rfl, rfl, ?_, ?_, ?_⟩
  · unfold GenVariant.get GenVariant.set GenVariant.handle
    rw [if_neg]
    intro hh
    exact bump_ne g.generation hh.symm
  · intro h hm
    unfold GenVariant.get at hm
    by_cases hg : h.generation = g.generation
    · show GenVariant.get (g.set n) h = none
      unfold GenVariant.get GenVariant.set
      have hne : ¬ h.generation = bump g.generation := by
        rw [hg]
        intro hh
        exact bump_ne g.generation hh.symm
      exact if_neg hne
    · rw [if_neg hg] at hm
      simp at hm
  · unfold GenVariant.get GenVariant.set GenVariant.handle
    rw [if_pos rfl]

/-- C9 witness: setting a fresh single-slot variant from int 1 to int 2
    invalidates the generation-0 handle that read int 1 before the call. -/
theorem genVariant_set_invalidates_witness :
    ((GenVariant.new (.int 1)).set (.int 2)).get ⟨0⟩ = none :=
  (genVariant_set_invalidates (GenVariant.new (.int 1)) (.int 2) (.int 1)).2.2.2.1
    ⟨0⟩ rfl

/-- C7: whenever replace, remove, swap or map_invalidate reports failure,
    the arena is returned exactly as it was: all validation happens
    before any mutation. -/
theorem failed_mutations_leave_state_unchanged {T : Type} (s : DynVec T)
    (h a b : Handle) (v : T) (f : Option T → Option T) :
    ((s.replace h v).1 = .error () → (s.replace h v).2 = s) ∧
    ((s.remove h).1 = none → (s.remove h).2 = s) ∧
    ((s.swap a b).1 = .error () → (s.swap a b).2 = s) ∧
    ((s.mapInvalidate h f).1 = .error () → (s.mapInvalidate h f).2 = s) := by
  refine ⟨?_, ?_, ?_, ?_⟩
  · unfold DynVec.replace
    split
    · intro _; rfl
    · split
      · intro _; rfl
      · intro hc; simp at hc
  · unfold DynVec.remove
    split
    · intro _; rfl
    · split
      · intro _; rfl
      · rename_i hcond
        intro hnone
        refine absurd (Or.inr ?_) hcond
        simpa using hnone
  · unfold DynVec.swap
    split
    · split
      · intro _; rfl
      · intro hc; simp at hc
    · intro _; rfl
  · unfold DynVec.mapInvalidate
    split
    · intro _; rfl
    · split
      · intro _; rfl
      · intro hc; simp at hc

/-- C7 witness: replacing through the out-of-bounds handle (5, 0) fails
    and leaves the concrete arena exAB unchanged. -/
theorem failed_mutations_witness : (exAB.replace ⟨5, 0⟩ 1).2 = exAB :=
  (failed_mutations_leave_state_unchanged exAB ⟨5, 0⟩ ⟨0, 0⟩ ⟨1, 0⟩ 1 id).1 rfl

/-- C4: replace succeeds exactly when the handle index is in bounds, the
    stored generation matches and the slot is occupied; on success the
    returned handle keeps the index, carries the generation bumped by one
    wrapping increment (hence a different generation), the old handle no
    longer validates and the new handle reads the stored value; in every
    other case replace returns the invalid-handle error. -/
theorem replace_spec {T : Type} (s : DynVec T) (h : Handle) (v : T) :
    (∀ h2, (s.replace h v).1 = .ok h2 →
      h2.idx = h.idx ∧ h2.generation = bump h.generation ∧
      h2.generation ≠ h.generation ∧
      (s.replace h v).2.get h = none ∧ (s.replace h v).2.get h2 = some v) ∧
    ((s.replace h v).1 = .error () ↔
      ¬ ∃ slot, s.slots[h.idx]? = some slot ∧ slot.generation = h.generation ∧
        slot.val.isSome) := by
  cases hs : s.slots[h.idx]? with
  | none =>
    constructor
    · intro h2 hc
      simp [DynVec.replace, hs] at hc
    · simp [DynVec.replace, hs]
  | some slot =>
    have hlt : h.idx < s.slots.length := (List.getElem?_eq_some_iff.mp hs).1
    by_cases hg : slot.generation = h.generation
    · cases hv : slot.val with
      | none =>
        constructor
        · intro h2 hc
          simp [DynVec.replace, hs, hv] at hc
        · simp [DynVec.replace, hs, hv]
      | some w =>
        have hstep : s.replace h v =
            (.ok ⟨h.idx, bump slot.generation⟩,
              ⟨s.slots.set h.idx ⟨bump slot.generation, some v⟩, s.free⟩) := by
          simp [DynVec.replace, hs, hg, hv]
        constructor
        · intro h2 hc
          rw [hstep] at hc
          obtain rfl : (⟨h.idx, bump slot.generation⟩ : Handle) = h2 := Except.ok.inj hc
          refine ⟨rfl, by rw [hg], ?_, ?_, ?_⟩
          · show bump slot.generation ≠ h.generation
            rw [hg]
            exact bump_ne h.generation
          · rw [hstep]
            simp [DynVec.get, List.getElem?_set_self hlt, hg, bump_ne]
          · rw [hstep]
            simp [DynVec.get, List.getElem?_set_self hlt]
        · rw [hstep]
          constructor
          · intro hc
            exact absurd hc (by simp)
          · intro hne
            exact absurd ⟨slot, rfl, hg, by simp [hv]⟩ hne
    · constructor
      · intro h2 hc
        simp [DynVec.replace, hs, hg] at hc
      · simp [DynVec.replace, hs, hg]

/-- C4 witness: replacing the value 10 behind the valid handle (0, 0) of
    the concrete arena exAB succeeds with the new handle (0, 1), and the
    new handle reads the stored value 99. -/
theorem replace_spec_witness : (exAB.replace ⟨0, 0⟩ 99).2.get ⟨0, 1⟩ = some 99 :=
  ((replace_spec exAB ⟨0, 0⟩ 99).1 ⟨0, 1⟩ rfl).2.2.2.2

/-- C3: insert always succeeds, and the returned handle immediately reads
    the inserted value. When the free list is non-empty, the index popped
    from its end is reused with the current generation of that slot and
    the free list shrinks by that entry; when the free list is empty, a
    new slot is appended at generation 0. The hypothesis that free-list
    indices are in bounds holds in every state reachable through the
    public API. -/
theorem insert_spec {T : Type} (s : DynVec T) (v : T)
    (hfree : ∀ i ∈ s.free, i < s.slots.length) :
    (s.insert v).2.get (s.insert v).1 = some v ∧
    (∀ idx, s.free.getLast? = some idx →
      ∃ slot, s.slots[idx]? = some slot ∧
        (s.insert v).1 = ⟨idx, slot.generation⟩ ∧
        (s.insert v).2.slots = s.slots.set idx ⟨slot.generation, some v⟩ ∧
        (s.insert v).2.free = s.free.dropLast) ∧
    (s.free.getLast? = none →
      (s.insert v).1 = ⟨s.slots.length, 0⟩ ∧
      (s.insert v).2.slots = s.slots ++ [⟨0, some v⟩] ∧
      (s.insert v).2.free = s.free) := by
  cases hlast : s.free.getLast? with
  | none =>
    have hins : s.insert v =
        (⟨s.slots.length, 0⟩, ⟨s.slots ++ [⟨0, some v⟩], s.free⟩) := by
      simp [DynVec.insert, hlast]
    refine ⟨?_, ?_, ?_⟩
    · rw [hins]
      simp [DynVec.get, List.getElem?_concat_length]
    · intro idx hidx
      simp at hidx
    · intro _
      rw [hins]
      exact ⟨rfl, rfl, rfl⟩
  | some idx =>
    have hmem : idx ∈ s.free := List.mem_of_getLast?_eq_some hlast
    have hlt : idx < s.slots.length := hfree idx hmem
    cases hs : s.slots[idx]? with
    | none =>
      rw [List.getElem?_eq_none_iff] at hs
      omega
    | some slot =>
      have hins : s.insert v =
          (⟨idx, slot.generation⟩,
            ⟨s.slots.set idx ⟨slot.generation, some v⟩, s.free.dropLast⟩) := by
        simp [DynVec.insert, hlast, hs]
      refine ⟨?_, ?_, ?_⟩
      · rw [hins]
        simp [DynVec.get, List.getElem?_set_self hlt]
      · intro idx0 hidx0
        obtain rfl : idx = idx0 := by simpa using hidx0
        exact ⟨slot, hs, by rw [hins], by rw [hins], by rw [hins]⟩
      · intro hnone
        simp at hnone

/-- C3 witness: inserting 7 into the empty arena yields a handle that
    immediately reads back 7. -/
theorem insert_spec_witness :
    ((DynVec.new (T := Nat)).insert 7).2.get ((DynVec.new (T := Nat)).insert 7).1
      = some 7 :=
  (insert_spec DynVec.new 7 (by simp [DynVec.new])).1

/-- C8: constructing a weak view succeeds exactly when get succeeds on the
    handle at construction time, and the view stores that arena reference
    and handle; dereferencing performs the same lookup as get against the
    arena seen through the stored reference, so after the slot behind a
    valid handle is removed, dereferencing through the old handle hits the
    use-after-invalidate panic branch, modelled as none. -/
theorem elem_spec {T : Type} (s : DynVec T) (h : Handle) (v : T) :
    (s.get h = some v → Elem.new s h = some ⟨s, h⟩) ∧
    (s.get h = none → Elem.new s h = none) ∧
    (∀ e, Elem.new s h = some e → e.parent = s ∧ e.handle = h) ∧
    (Elem.mk s h).deref = s.get h ∧
    (s.get h = some v → (Elem.mk (s.remove h).2 h).deref = none) := by
  refine ⟨?_, ?_, ?_, rfl, ?_⟩
  · intro hv
    unfold Elem.new
    rw [hv]
    rfl
  · intro hv
    unfold Elem.new
    rw [hv]
    rfl
  · intro e he
    unfold Elem.new at he
    cases hg : s.get h with
    | none => rw [hg] at he; simp at he
    | some w =>
      rw [hg] at he
      obtain rfl : (⟨s, h⟩ : Elem T) = e := by simpa using he
      exact ⟨rfl, rfl⟩
  · intro hv
    unfold DynVec.get at hv
    cases hs : s.slots[h.idx]? with
    | none => rw [hs] at hv; simp at hv
    | some slot =>
      rw [hs] at hv
      simp only [Option.ite_none_right_eq_some] at hv
      obtain ⟨hg, hval⟩ := hv
      have hlt : h.idx < s.slots.length := (List.getElem?_eq_some_iff.mp hs).1
      have hrem : (s.remove h).2 =
          ⟨s.slots.set h.idx ⟨bump slot.generation, none⟩, s.free ++ [h.idx]⟩ := by
        simp [DynVec.remove, hs, hg, hval]
      show DynVec.get _ _ = none
      rw [hrem]
      simp [DynVec.get, List.getElem?_set_self hlt]

/-- C8 witness: in exAB the handle (0, 0) is valid; after removing that
    slot, dereferencing a view made of the mutated arena and the stale
    handle yields the panic branch, modelled as none. -/
theorem elem_spec_witness :
    (Elem.mk (exAB.remove ⟨0, 0⟩).2 ⟨0, 0⟩).deref = none :=
  (elem_spec exAB ⟨0, 0⟩ 10).2.2.2.2 rfl

/-- The clear loop preserves the number of slots. -/
theorem clearAux_length {T : Type} (l : List (Slot T)) (i : Nat) :
    (DynVec.clearAux l i).1.length = l.length := by
  induction l generalizing i with
  | nil => rfl
  | cons slot rest ih =>
    cases hv : slot.val with
    | none => simp [DynVec.clearAux, hv, ih]
    | some w => simp [DynVec.clearAux, hv, ih]

/-- Slotwise description of the clear loop: occupied slots are emptied
    with a bumped generation, empty slots are returned unchanged. -/
theorem clearAux_getElem? {T : Type} (l : List (Slot T)) (i j : Nat) :
    (DynVec.clearAux l i).1[j]? = (l[j]?).map fun sl =>
      if sl.val.isSome then ⟨bump sl.generation, none⟩ else sl := by
  induction l generalizing i j with
  | nil => simp [DynVec.clearAux]
  | cons slot rest ih =>
    cases j with
    | zero =>
      cases hv : slot.val with
      | none => simp [DynVec.clearAux, hv]
      | some w => simp [DynVec.clearAux, hv]
    | succ j =>
      cases hv : slot.val with
      | none => simp [DynVec.clearAux, hv, ih]
      | some w => simp [DynVec.clearAux, hv, ih]

/-- The indices the clear loop pushes onto the free list are exactly the
    positions, offset by the starting index, of the occupied slots. -/
theorem clearAux_free_mem {T : Type} (l : List (Slot T)) (i m : Nat) :
    m ∈ (DynVec.clearAux l i).2 ↔
      ∃ j, ∃ sl, l[j]? = some sl ∧ sl.val.isSome ∧ m = i + j := by
  induction l generalizing i m with
  | nil => simp [DynVec.clearAux]
  | cons slot rest ih =>
    cases hv : slot.val with
    | none =>
      simp only [DynVec.clearAux, hv]
      rw [ih]
      constructor
      · rintro ⟨j, sl, hj, hocc, rfl⟩
        exact ⟨j + 1, sl, by simpa using hj, hocc, by omega⟩
      · rintro ⟨j, sl, hj, hocc, rfl⟩
        cases j with
        | zero =>
          obtain rfl : slot = sl := by simpa using hj
          simp [hv] at hocc
        | succ j =>
          exact ⟨j, sl, by simpa using hj, hocc, by omega⟩
    | some w =>
      simp only [DynVec.clearAux, hv, List.mem_cons]
      rw [ih]
      constructor
      · rintro (rfl | ⟨j, sl, hj, hocc, rfl⟩)
        · exact ⟨0, slot, by simp, by simp [hv], by omega⟩
        · exact ⟨j + 1, sl, by simpa using hj, hocc, by omega⟩
      · rintro ⟨j, sl, hj, hocc, rfl⟩
        cases j with
        | zero => exact Or.inl (by omega)
        | succ j =>
          exact Or.inr ⟨j, sl, by simpa using hj, hocc, by omega⟩

/-- Every slot produced by the clear loop is empty. -/
theorem clearAux_val_none {T : Type} (l : List (Slot T)) (i : Nat) :
    ∀ sl ∈ (DynVec.clearAux l i).1, sl.val = none := by
  induction l generalizing i with
  | nil => simp [DynVec.clearAux]
  | cons slot rest ih =>
    cases hv : slot.val with
    | none =>
      simp only [DynVec.clearAux, hv]
      intro sl hsl
      rcases List.mem_cons.mp hsl with rfl | hmem
      · exact hv
      · exact ih (i + 1) sl hmem
    | some w =>
      simp only [DynVec.clearAux, hv]
      intro sl hsl
      rcases List.mem_cons.mp hsl with rfl | hmem
      · rfl
      · exact ih (i + 1) sl hmem

/-- On a list of empty slots the clear loop is the identity and pushes
    nothing. -/
theorem clearAux_of_empty {T : Type} :
    ∀ (l : List (Slot T)) (i : Nat), (∀ sl ∈ l, sl.val = none) →
      DynVec.clearAux l i = (l, []) := by
  intro l
  induction l with
  | nil => intro i _; rfl
  | cons slot rest ih =>
    intro i h
    have hv : slot.val = none := h slot (List.mem_cons_self slot rest)
    have hrest : DynVec.clearAux rest (i + 1) = (rest, []) :=
      ih (i + 1) fun sl hsl => h sl (List.mem_cons_of_mem _ hsl)
    simp [DynVec.clearAux, hv, hrest]

/-- C6: clear empties every occupied slot, bumping its generation and
    pushing its index onto the free list, leaves already-empty slots
    untouched and never drops a free-list entry; afterwards no handle at
    all validates, a second clear changes nothing, and the slot count is
    unchanged. -/
theorem clear_spec {T : Type} (s : DynVec T) :
    (∀ i slot, s.slots[i]? = some slot →
      (slot.val.isSome → s.clear.slots[i]? = some ⟨bump slot.generation, none⟩ ∧
        i ∈ s.clear.free) ∧
      (slot.val = none → s.clear.slots[i]? = some slot)) ∧
    (∀ i ∈ s.free, i ∈ s.clear.free) ∧
    (∀ h : Handle, s.clear.get h = none) ∧
    s.clear.clear = s.clear ∧
    s.clear.len = s.len := by
  refine ⟨?_, ?_, ?_, ?_, ?_⟩
  · intro i slot hs
    constructor
    · intro hocc
      constructor
      · show (DynVec.clearAux s.slots 0).1[i]? = _
        rw [clearAux_getElem?, hs]
        simp [hocc]
      · show i ∈ s.free ++ (DynVec.clearAux s.slots 0).2
        refine List.mem_append.mpr (Or.inr ?_)
        rw [clearAux_free_mem]
        exact ⟨i, slot, hs, hocc, by omega⟩
    · intro hnone
      show (DynVec.clearAux s.slots 0).1[i]? = some slot
      rw [clearAux_getElem?, hs]
      simp [hnone]
  · intro i hi
    exact List.mem_append.mpr (Or.inl hi)
  · intro h
    unfold DynVec.get
    cases hs : s.clear.slots[h.idx]? with
    | none => rfl
    | some slot =>
      have hempty : slot.val = none :=
        clearAux_val_none s.slots 0 slot (List.getElem?_mem hs)
      simp [hempty]
  · simp only [DynVec.clear]
    rw [clearAux_of_empty _ 0 (clearAux_val_none s.slots 0)]
    simp
  · exact clearAux_length s.slots 0

/-- C6 witness: clearing the concrete arena exAB invalidates the handle
    (0, 0) that was valid before the call, and pushes index 0 onto the
    free list. -/
theorem clear_spec_witness :
    exAB.clear.get ⟨0, 0⟩ = none ∧ 0 ∈ exAB.clear.free :=
  ⟨(clear_spec exAB).2.2.1 ⟨0, 0⟩,
    (((clear_spec exAB).1 0 ⟨0, some 10⟩ rfl).1 rfl).2⟩

/-- Vec::swap preserves the length of the vector. -/
theorem listSwap_length {α : Type} (l : List α) (i j : Nat) :
    (DynVec.listSwap l i j).length = l.length := by
  unfold DynVec.listSwap
  split
  · rw [List.length_set, List.length_set]
  · rfl

/-- The state after replace is the old state or the old state with one
    slot overwritten in place. -/
theorem replace_snd {T : Type} (s : DynVec T) (h : Handle) (v : T) :
    (s.replace h v).2 = s ∨
      ∃ g, (s.replace h v).2 = ⟨s.slots.set h.idx g, s.free⟩ := by
  unfold DynVec.replace
  split
  · exact Or.inl rfl
  · split
    · exact Or.inl rfl
    · exact Or.inr ⟨_, rfl⟩

/-- The state after remove is the old state, or the old state with the
    in-bounds slot at the handle index emptied and that index appended to
    the free list. -/
theorem remove_snd {T : Type} (s : DynVec T) (h : Handle) :
    (s.remove h).2 = s ∨
      ∃ slot, s.slots[h.idx]? = some slot ∧
        (s.remove h).2 =
          ⟨s.slots.set h.idx ⟨bump slot.generation, none⟩, s.free ++ [h.idx]⟩ := by
  unfold DynVec.remove
  split
  · exact Or.inl rfl
  · rename_i slot heq
    split
    · exact Or.inl rfl
    · exact Or.inr ⟨slot, heq, rfl⟩

/-- The state after swap is the old state or the old state with the slot
    vector permuted by Vec::swap. -/
theorem swap_snd {T : Type} (s : DynVec T) (a b : Handle) :
    (s.swap a b).2 = s ∨
      (s.swap a b).2 = ⟨DynVec.listSwap s.slots a.idx b.idx, s.free⟩ := by
  unfold DynVec.swap
  split
  · split
    · exact Or.inl rfl
    · exact Or.inr rfl
  · exact Or.inl rfl

/-- The state after map_invalidate is the old state or the old state with
    one slot overwritten in place. -/
theorem mapInvalidate_snd {T : Type} (s : DynVec T) (h : Handle)
    (f : Option T → Option T) :
    (s.mapInvalidate h f).2 = s ∨
      ∃ g, (s.mapInvalidate h f).2 = ⟨s.slots.set h.idx g, s.free⟩ := by
  unfold DynVec.mapInvalidate
  split
  · exact Or.inl rfl
  · split
    · exact Or.inl rfl
    · exact Or.inr ⟨_, rfl⟩

/-- The state after a write through get_mut is the old state or the old
    state with one slot overwritten in place. -/
theorem mutateVia_snd {T : Type} (s : DynVec T) (h : Handle) (f : T → T) :
    s.mutateVia h f = s ∨
      ∃ g, s.mutateVia h f = ⟨s.slots.set h.idx g, s.free⟩ := by
  unfold DynVec.mutateVia
  split
  · exact Or.inl rfl
  · split
    · split
      · exact Or.inr ⟨_, rfl⟩
      · exact Or.inl rfl
    · exact Or.inl rfl

/-- Every public mutating operation preserves the property that each
    free-list index is a valid slot index. -/
theorem freeInBounds_step {T : Type} {s s2 : DynVec T}
    (hs : ∀ i ∈ s.free, i < s.slots.length) (hstep : Step s s2) :
    ∀ i ∈ s2.free, i < s2.slots.length := by
  cases hstep with
  | insert v =>
    intro i hi
    cases hlast : s.free.getLast? with
    | none =>
      have hins : (s.insert v).2 = ⟨s.slots ++ [⟨0, some v⟩], s.free⟩ := by
        simp [DynVec.insert, hlast]
      simp only [hins] at hi ⊢
      have h1 := hs i hi
      simp only [List.length_append, List.length_cons, List.length_nil]
      omega
    | some idx =>
      cases hslot : s.slots[idx]? with
      | none =>
        rw [List.getElem?_eq_none_iff] at hslot
        have := hs idx (List.mem_of_getLast?_eq_some hlast)
        omega
      | some slot =>
        have hins : (s.insert v).2 =
            ⟨s.slots.set idx ⟨slot.generation, some v⟩, s.free.dropLast⟩ := by
          simp [DynVec.insert, hlast, hslot]
        simp only [hins] at hi ⊢
        rw [List.length_set]
        exact hs i (List.dropLast_subset s.free hi)
  | replace h v =>
    intro i hi
    rcases replace_snd s h v with heq | ⟨g, heq⟩
    · simp only [heq] at hi ⊢
      exact hs i hi
    · simp only [heq] at hi ⊢
      rw [List.length_set]
      exact hs i hi
  | remove h =>
    intro i hi
    rcases remove_snd s h with heq | ⟨slot, hsl, heq⟩
    · simp only [heq] at hi ⊢
      exact hs i hi
    · simp only [heq] at hi ⊢
      rw [List.length_set]
      rcases List.mem_append.mp hi with hmem | hmem
      · exact hs i hmem
      · obtain rfl : i = h.idx := by simpa using hmem
        exact (List.getElem?_eq_some_iff.mp hsl).1
  | clear =>
    intro i hi
    show i < (DynVec.clearAux s.slots 0).1.length
    rw [clearAux_length]
    rcases List.mem_append.mp hi with hmem | hmem
    · exact hs i hmem
    · obtain ⟨j, sl, hj, _, rfl⟩ := (clearAux_free_mem s.slots 0 i).mp hmem
      have := (List.getElem?_eq_some_iff.mp hj).1
      omega
  | swap a b =>
    intro i hi
    rcases swap_snd s a b with heq | heq
    · simp only [heq] at hi ⊢
      exact hs i hi
    · simp only [heq] at hi ⊢
      rw [listSwap_length]
      exact hs i hi
  | mapInvalidate h f =>
    intro i hi
    rcases mapInvalidate_snd s h f with heq | ⟨g, heq⟩
    · simp only [heq] at hi ⊢
      exact hs i hi
    · simp only [heq] at hi ⊢
      rw [List.length_set]
      exact hs i hi
  | getMutWrite h f =>
    intro i hi
    rcases mutateVia_snd s h f with heq | ⟨g, heq⟩
    · simp only [heq] at hi ⊢
      exact hs i hi
    · simp only [heq] at hi ⊢
      rw [List.length_set]
      exact hs i hi

/-- C10: in every arena state reachable through the public API, every
    free-list index is strictly below the slot count, so the index popped
    by insert is always in bounds and the unchecked indexing in insert
    cannot panic. -/
theorem reachable_free_in_bounds {T : Type} {s : DynVec T} (hr : Reachable s) :
    (∀ i ∈ s.free, i < s.slots.length) ∧
    (∀ idx, s.free.getLast? = some idx → idx < s.slots.length) := by
  have main : ∀ i ∈ s.free, i < s.slots.length := by
    induction hr with
    | new => intro i hi; simp [DynVec.new] at hi
    | step hr hstep ih => exact freeInBounds_step ih hstep
  exact ⟨main, fun idx hidx => main idx (List.mem_of_getLast?_eq_some hidx)⟩

/-- C10 witness: the arena reached by inserting 5 and removing it has
    free list with entry 0 and one slot, and the theorem applied to that
    reachable state places the entry in bounds. -/
theorem reachable_free_in_bounds_witness :
    0 < ((((DynVec.new (T := Nat)).insert 5).2.remove ⟨0, 0⟩).2).slots.length :=
  (reachable_free_in_bounds
    (Reachable.step (Reachable.step Reachable.new (Step.insert DynVec.new 5))
      (Step.remove ((DynVec.new (T := Nat)).insert 5).2 ⟨0, 0⟩))).1 0 (by decide)

end GenMem
